import Mathlib

/-!
Shallow embedding of the resume-matching service
(apps/api/app/parser.py, apps/api/app/routes_match.py, apps/api/app/main.py).

Text is modelled as `List Char` (Python `str` indexing is by character, as is
list indexing here).  Python `str.lower` is modelled characterwise by
`Char.toLower`; Python whitespace (regex class backslash-s) is modelled by
`pySpace`, covering the six ASCII whitespace characters.  Floating point
arithmetic of the scoring code is modelled exactly over the rationals.
-/

set_option maxRecDepth 40000

namespace ResumeMatch

/-- Python whitespace characters: the set matched by the regex class
backslash-s restricted to ASCII (space, tab, newline, carriage return,
vertical tab, form feed).  Also the characters removed by str.strip. -/
def pySpace (c : Char) : Bool :=
  c = ' ' || c = '\t' || c = '\n' || c = '\r' || c = '\x0b' || c = '\x0c'

/-- Characterwise model of Python str.lower (exact on ASCII input). -/
def toLowerL (l : List Char) : List Char := l.map Char.toLower

/-- Model of one step of the regex substitution sub(backslash-s+, single
space): every maximal run of whitespace collapses to one space character. -/
def collapseWS : List Char → List Char
  | [] => []
  | [c] => if pySpace c then [' '] else [c]
  | a :: b :: l =>
    if pySpace a && pySpace b then collapseWS (b :: l)
    else (if pySpace a then ' ' else a) :: collapseWS (b :: l)

/-- Helper for str.strip: drop trailing whitespace. -/
def dropTrailingWS : List Char → List Char
  | [] => []
  | c :: cs =>
    if (dropTrailingWS cs).isEmpty && pySpace c then []
    else c :: dropTrailingWS cs

/-- Model of Python str.strip (no arguments): remove leading and trailing
whitespace. -/
def pyStrip (l : List Char) : List Char :=
  dropTrailingWS (l.dropWhile pySpace)

/-- parser.py, normalize: sub(backslash-s+, single space) followed by strip. -/
def normalize (l : List Char) : List Char :=
  pyStrip (collapseWS l)

/-- Model of Python str.find for a needle s in a haystack t starting the
scan at position 0: the least index where s occurs, none when absent
(Python returns -1 in that case). -/
def occursAt (s t : List Char) (i : Nat) : Bool := s.isPrefixOf (t.drop i)

/-- First index at which s occurs in t, if any (Python str.find). -/
def findSub (s t : List Char) : Option Nat :=
  (List.range (t.length + 1)).find? (occursAt s t)

/-- Model of the Python containment test needle in haystack. -/
def containsSub (s t : List Char) : Bool :=
  (List.range (t.length + 1)).any (occursAt s t)

/-- Python regex word character (ASCII part of backslash-w). -/
def isWordChar (c : Char) : Bool := c.isAlphanum || c = '_'

/-- Occurrence of s in t at position i with regex word boundaries on both
sides.  This is the semantics of search of the pattern
backslash-b escape(s) backslash-b for a term s made of word characters
only (all terms of the parser vocabulary are). -/
def wbOccursAt (s t : List Char) (i : Nat) : Bool :=
  occursAt s t i
    && (i == 0 || !isWordChar (t.getD (i - 1) ' '))
    && (i + s.length == t.length || !isWordChar (t.getD (i + s.length) ' '))

/-- Model of re.search of the word-bounded pattern for s in t: some
word-bounded occurrence exists. -/
def wbSearch (s t : List Char) : Bool :=
  (List.range (t.length + 1)).any (wbOccursAt s t)

/-- Maximal runs of characters not satisfying p, in order.  Used to model
Python re.split on a separator-run pattern and str.split: the only
difference to re.split is that re.split also yields empty parts at the
ends, which every caller in the source immediately filters away. -/
def runsSplit (p : Char → Bool) : List Char → List (List Char)
  | [] => []
  | c :: cs =>
    if p c then runsSplit p cs
    else
      match runsSplit p cs, cs with
      | [], _ => [[c]]
      | r :: rs, d :: _ => if p d then [c] :: r :: rs else (c :: r) :: rs
      | _ :: _, [] => [[c]]

/-- Model of Python str.split with no arguments: maximal whitespace-free
runs. -/
def pySplit (l : List Char) : List (List Char) := runsSplit pySpace l

/-- Stable deduplication with an accumulator of already seen elements,
modelling the seen-set loops of routes_match.py. -/
def dedupFirstAux {α : Type} [DecidableEq α] (seen : List α) : List α → List α
  | [] => []
  | a :: l =>
    if a ∈ seen then dedupFirstAux seen l
    else a :: dedupFirstAux (a :: seen) l

/-- Stable first-occurrence deduplication. -/
def dedupFirst {α : Type} [DecidableEq α] (l : List α) : List α :=
  dedupFirstAux [] l

/-- Lexicographic comparison of character lists by code point, the order
used by Python sorted on strings. -/
def lexLe : List Char → List Char → Prop
  | [], _ => True
  | _ :: _, [] => False
  | a :: as, b :: bs => if a = b then lexLe as bs else a.toNat < b.toNat

instance : DecidableRel lexLe := by
  intro l
  induction l with
  | nil => intro m; exact .isTrue trivial
  | cons a as ih =>
    intro m
    cases m with
    | nil => exact .isFalse (fun h => h)
    | cons b bs =>
      unfold lexLe
      by_cases hab : a = b
      · simpa [hab] using ih bs
      · simpa [hab] using inferInstanceAs (Decidable (a.toNat < b.toNat))

-- ---------------------------------------------------------------------------
-- parser.py
-- ---------------------------------------------------------------------------

/-- parser.py, DEFAULT_SKILLS. -/
def DEFAULT_SKILLS : List (List Char) :=
  ["python", "sql", "tensorflow", "pytorch", "keras", "fastapi", "docker",
   "postgresql", "redis", "mlflow", "nlp", "spacy", "aws", "azure",
   "git"].map String.data

/-- parser.py, the stop_keywords list inside extract_section. -/
def stop_keywords : List (List Char) :=
  ["education", "experience", "projects", "skills", "certifications",
   "summary"].map String.data

/-- parser.py, extract_section, the header scan: the find result of the
first header variant (in list order) that occurs in the lowercased text. -/
def headerStart (t : List Char) (header_variants : List (List Char)) :
    Option Nat :=
  header_variants.findSome? (fun h => findSub (toLowerL h) (toLowerL t))

/-- parser.py, extract_section: window of 2500 characters after the found
header, truncated at the second smallest positive first-occurrence index
of a stop keyword (one candidate index per keyword), then normalized. -/
def extract_section (t : List Char) (header_variants : List (List Char)) :
    List Char :=
  match headerStart t header_variants with
  | none => []
  | some start =>
    let chunk := (t.drop start).take 2500
    let chunkLower := toLowerL chunk
    let stops :=
      ((stop_keywords.filterMap (fun k => findSub k chunkLower)).filter
        (fun s => 0 < s)).insertionSort (· ≤ ·)
    match stops with
    | _ :: s1 :: _ => normalize (chunk.take s1)
    | _ => normalize chunk

/-- parser.py, extract_skills: word-bounded case-insensitive vocabulary
scan, result deduplicated and sorted (Python sorted(set(found))). -/
def extract_skills (text : List Char)
    (skill_list : List (List Char) := DEFAULT_SKILLS) : List (List Char) :=
  let t := toLowerL text
  let found := skill_list.filter (fun s => wbSearch (toLowerL s) t)
  (dedupFirst found).insertionSort lexLe

/-- parser.py, extract_bullets: split on runs of bullet delimiters, keep
normalized parts longer than 5 characters, first 12 of them. -/
def extract_bullets (section_text : List Char) : List (List Char) :=
  if section_text = [] then []
  else
    ((runsSplit (fun c => c = '\n' || c = '•' || c = '-') section_text).filterMap
      (fun p => if 5 < (normalize p).length then some (normalize p) else none)).take 12

/-- parser.py, parse_resume output record. -/
structure Parsed where
  skills : List (List Char)
  education : List (List Char)
  experience : List (List Char)
  skills_found : Bool
  education_found : Bool
  experience_found : Bool
  deriving DecidableEq, Repr

/-- parser.py, parse_resume. -/
def parse_resume (raw_text : List Char) : Parsed :=
  let skills_section := extract_section raw_text
    (["skills", "technical skills"].map String.data)
  let edu_section := extract_section raw_text
    (["education", "academic background"].map String.data)
  let exp_section := extract_section raw_text
    (["experience", "work experience", "professional experience"].map String.data)
  let skills := extract_skills
    (if skills_section ≠ [] then skills_section else raw_text)
  { skills := skills
    education := extract_bullets edu_section
    experience := extract_bullets exp_section
    skills_found := skills_section ≠ []
    education_found := edu_section ≠ []
    experience_found := exp_section ≠ [] }

-- ---------------------------------------------------------------------------
-- routes_match.py
-- ---------------------------------------------------------------------------

/-- routes_match.py, the module level skill vocabulary for job
descriptions (source name with a leading underscore). -/
def SKILL_TERMS : List (List Char) :=
  ["python", "java", "c++", "javascript", "typescript", "go",
   "bash", "shell", "linux",
   "data science", "data analysis", "data analytics",
   "pandas", "numpy", "scipy",
   "matplotlib", "seaborn", "plotly",
   "jupyter", "notebook",
   "machine learning", "ml",
   "scikit-learn", "sklearn",
   "supervised learning", "unsupervised learning",
   "classification", "regression", "clustering",
   "feature engineering", "model evaluation",
   "deep learning", "neural networks",
   "tensorflow", "tensor flow",
   "keras",
   "pytorch", "torch",
   "cnn", "rnn", "lstm", "transformer",
   "nlp", "natural language processing",
   "tokenization", "lemmatization",
   "word embeddings", "embeddings",
   "sentence transformers", "sentence-transformers",
   "spacy", "nltk",
   "bert", "gpt", "llm",
   "computer vision",
   "opencv",
   "image processing",
   "object detection", "image classification",
   "yolo", "resnet",
   "sql", "postgres", "postgresql",
   "mysql", "sqlite",
   "nosql", "mongodb",
   "pgvector",
   "big data",
   "spark", "pyspark",
   "hadoop",
   "kafka",
   "fastapi", "flask", "django",
   "rest api", "restful api",
   "grpc",
   "mlops",
   "docker", "docker compose",
   "kubernetes", "k8s",
   "ci/cd",
   "github actions", "gitlab ci",
   "mlflow",
   "model deployment",
   "monitoring",
   "aws", "amazon web services",
   "s3", "ec2", "lambda",
   "gcp", "google cloud",
   "azure",
   "software engineering",
   "system design",
   "data structures",
   "algorithms",
   "object oriented programming",
   "oop",
   "version control",
   "git",
   "statistics", "probability",
   "linear algebra",
   "optimization",
   "hypothesis testing"].map String.data

/-- routes_match.py, the skill normalizer (source name with a leading
underscore): strip, lowercase, collapse whitespace runs. -/
def normalize_skill (s : List Char) : List Char :=
  collapseWS (toLowerL (pyStrip s))

/-- routes_match.py, extract_jd_skills: plain case-insensitive substring
scan over the vocabulary, normalized and stably deduplicated. -/
def extract_jd_skills (jd_text : List Char) : List (List Char) :=
  let text := toLowerL jd_text
  let found := (SKILL_TERMS.filter (fun term => containsSub term text)).map
    normalize_skill
  dedupFirst found

/-- Value found under the skills key of a parsed-resume json dict.
vnone models both an absent key and a json null. -/
inductive SkillsVal
  | vnone
  | vlist (l : List (List Char))
  | vstr (s : List Char)
  deriving DecidableEq

/-- Python truthiness of a SkillsVal (None, empty list and empty string
are falsy). -/
def SkillsVal.truthy : SkillsVal → Bool
  | .vnone => false
  | .vlist l => !l.isEmpty
  | .vstr s => !s.isEmpty

/-- A parsed_json database value as seen by extract_resume_skills: either
not a dict, or a dict carrying the values under the keys skills and
Skills. -/
inductive ParsedJson
  | notDict
  | dict (skillsKey : SkillsVal) (skillsCapKey : SkillsVal)
  deriving DecidableEq

/-- routes_match.py, the norm_list helper inside extract_resume_skills:
normalize each entry, drop empties, stably deduplicate. -/
def norm_list (items : List (List Char)) : List (List Char) :=
  dedupFirst ((items.map normalize_skill).filter (fun s => s ≠ []))

/-- routes_match.py, extract_resume_skills: prefer the parser skills
field (list form or delimiter-separated string form), fall back to a
substring scan of the clean text over the vocabulary. -/
def extract_resume_skills (parsed_json : ParsedJson)
    (resume_clean_text : List Char) : List (List Char) :=
  let skills_val : SkillsVal :=
    match parsed_json with
    | .notDict => .vnone
    | .dict sk skCap => if sk.truthy then sk else skCap
  let parser_skills : List (List Char) :=
    match skills_val with
    | .vlist xs =>
      xs.filterMap (fun x => if pyStrip x = [] then none else some (pyStrip x))
    | .vstr s =>
      (runsSplit (fun c => c = ',' || c = '\n' || c = ';') s).filterMap
        (fun p => if pyStrip p = [] then none else some (pyStrip p))
    | .vnone => []
  let parserNorm := norm_list parser_skills
  if parserNorm ≠ [] then parserNorm
  else
    let text := toLowerL resume_clean_text
    norm_list ((SKILL_TERMS.filter (fun term => containsSub term text)).map
      normalize_skill)

/-- routes_match.py, compute_skill_overlap: returns the overlap score and
the matched and missing sublists of the job-description skills. -/
def compute_skill_overlap (resume_skills jd_skills : List (List Char)) :
    ℚ × List (List Char) × List (List Char) :=
  let matched := jd_skills.filter (fun s => s ∈ resume_skills)
  let missing := jd_skills.filter (fun s => s ∉ resume_skills)
  let score : ℚ :=
    if jd_skills = [] then 0 else (matched.length : ℚ) / (jd_skills.length : ℚ)
  (score, matched, missing)

/-- routes_match.py, experience_alignment: fraction of job-description
skill terms occurring as substrings of the lowercased clean text. -/
def experience_alignment (clean_text : List Char)
    (jd_skills : List (List Char)) : ℚ × List (List Char) :=
  let text := toLowerL clean_text
  let hits := jd_skills.filter (fun s => s ≠ [] && containsSub s text)
  let score : ℚ :=
    if jd_skills = [] then 0
    else (hits.length : ℚ) / ((max 1 jd_skills.length : ℕ) : ℚ)
  (score, hits)

/-- Round half to even at integer precision, the tie-breaking rule of the
Python built-in round. -/
def roundHalfEven (q : ℚ) : ℤ :=
  let f := ⌊q⌋
  if q - f < 1 / 2 then f
  else if (1 : ℚ) / 2 < q - f then f + 1
  else if f % 2 = 0 then f else f + 1

/-- Model of Python round(x, 4). -/
def round4 (q : ℚ) : ℚ := (roundHalfEven (q * 10000) : ℚ) / 10000

/-- One database row of the vector-search query in the match endpoint. -/
structure RetrievedRow where
  resume_id : Nat
  parsed_json : ParsedJson
  clean_text : List Char
  semantic_similarity : Option ℚ
  deriving DecidableEq

/-- One entry of the results list returned by the match endpoint. -/
structure MatchResult where
  resume_id : Nat
  final_score : ℚ
  semantic_similarity : ℚ
  skills_overlap : ℚ
  experience_alignment : ℚ
  skills_matched : List (List Char)
  skills_missing : List (List Char)
  keyword_hits : List (List Char)
  deriving DecidableEq

/-- routes_match.py, the loop body of the match endpoint (lines 244 to
269): scores one retrieved resume against the detected job-description
skills.  The Python expression float(semantic_sim or 0.0) is modelled by
Option.getD 0. -/
def mkResult (jd_skills : List (List Char)) (row : RetrievedRow) :
    MatchResult :=
  let resume_skills := extract_resume_skills row.parsed_json row.clean_text
  let ov := compute_skill_overlap resume_skills jd_skills
  let ea := experience_alignment row.clean_text jd_skills
  let sem := row.semantic_similarity.getD 0
  let final : ℚ := 0.60 * sem + 0.25 * ov.1 + 0.15 * ea.1
  { resume_id := row.resume_id
    final_score := round4 final
    semantic_similarity := round4 sem
    skills_overlap := round4 ov.1
    experience_alignment := round4 ea.1
    skills_matched := ov.2.1
    skills_missing := ov.2.2
    keyword_hits := ea.2 }

/-- Descending order on the reported final score; the sort key of the
match endpoint (reverse=True on the final_score key). -/
def scoreGE (a b : MatchResult) : Prop := b.final_score ≤ a.final_score

instance : DecidableRel scoreGE := fun a b =>
  inferInstanceAs (Decidable (b.final_score ≤ a.final_score))

instance : IsTotal MatchResult scoreGE :=
  ⟨fun a b => le_total b.final_score a.final_score⟩

instance : IsTrans MatchResult scoreGE :=
  ⟨fun _ _ _ h1 h2 => le_trans h2 h1⟩

/-- routes_match.py, the post-retrieval phase of the match endpoint:
detect job-description skills, score every retrieved row, sort by final
score descending with a stable sort (Python list.sort is stable). -/
def matchResults (jd_clean_text : List Char) (rows : List RetrievedRow) :
    List MatchResult :=
  let jd_skills := extract_jd_skills jd_clean_text
  (rows.map (mkResult jd_skills)).insertionSort scoreGE

-- ---------------------------------------------------------------------------
-- main.py: the background processing pipeline
-- ---------------------------------------------------------------------------

/-- Lifecycle status values written by main.py. -/
inductive Status
  | UPLOADED
  | PROCESSING
  | EXTRACTED
  | NEEDS_OCR
  | FAILED
  | PROCESSED
  deriving DecidableEq, Repr

/-- Database row of the resumes table, the fields touched by the
background pipeline. -/
structure ResumeRow where
  status : Status
  raw_text : Option (List Char)
  clean_text : Option (List Char)
  parsed_json : Option Parsed
  embedding : Option (List ℚ)
  embedding_model : Option (List Char)
  deriving DecidableEq

/-- main.py, set_status: update status, and raw_text only when a text is
passed (the raw_text parameter defaults to None and None leaves raw_text
untouched). -/
def set_status (row : ResumeRow) (status : Status)
    (raw_text : Option (List Char)) : ResumeRow :=
  match raw_text with
  | none => { row with status := status }
  | some t => { row with status := status, raw_text := some t }

/-- main.py, clean_text_basic: join the whitespace-split words with
single spaces. -/
def clean_text_basic (text : List Char) : List Char :=
  match pySplit text with
  | [] => []
  | w :: ws => ws.foldl (fun acc x => acc ++ ' ' :: x) w

/-- main.py, set_phase3_outputs: one atomic update writing PROCESSED with
all derived fields. -/
def set_phase3_outputs (row : ResumeRow) (clean_text : List Char)
    (parsed_json : Parsed) (embedding : List ℚ)
    (embedding_model : List Char) : ResumeRow :=
  { row with
    status := .PROCESSED
    clean_text := some clean_text
    parsed_json := some parsed_json
    embedding := some embedding
    embedding_model := some embedding_model }

/-- Diagnostic string written on failure, the Python f-string
ERROR: followed by the exception text. -/
def errMsg (e : List Char) : List Char := "ERROR: ".data ++ e

/-- main.py, process_resume_text.  Effectful collaborators are passed as
data: extractResult is the outcome of extract_text (ok text, or error
when the extractor raised) and embed is the outcome function of
embed_text.  The try-except of the source swallows every error and
records FAILED; here every error branch ends in the same set_status
call, and the function is total, which is the model of never raising to
the caller.  clean_text_basic and parse_resume are pure total functions
and cannot fail. -/
def process_resume_text (extractResult : Except (List Char) (List Char))
    (embed : List Char → Except (List Char) (List ℚ))
    (embedding_model : List Char) (row : ResumeRow) : ResumeRow :=
  let row1 := set_status row .PROCESSING none
  match extractResult with
  | .error e => set_status row1 .FAILED (some (errMsg e))
  | .ok text =>
    if (pyStrip text).length < 200 then
      set_status row1 .NEEDS_OCR (some text)
    else
      let row2 := set_status row1 .EXTRACTED (some text)
      let clean := clean_text_basic text
      let parsed := parse_resume clean
      match embed clean with
      | .error e => set_status row2 .FAILED (some (errMsg e))
      | .ok emb => set_phase3_outputs row2 clean parsed emb embedding_model

-- ---------------------------------------------------------------------------
-- Helper lemmas
-- ---------------------------------------------------------------------------

theorem mem_dedupFirstAux {α : Type} [DecidableEq α] (l : List α) :
    ∀ (seen : List α) (a : α),
      a ∈ dedupFirstAux seen l ↔ a ∈ l ∧ a ∉ seen := by
  induction l with
  | nil => intro seen a; simp [dedupFirstAux]
  | cons b l ih =>
    intro seen a
    unfold dedupFirstAux
    by_cases hb : b ∈ seen
    · simp only [if_pos hb, ih, List.mem_cons]
      constructor
      · rintro ⟨hl, hs⟩; exact ⟨Or.inr hl, hs⟩
      · rintro ⟨hba, hs⟩
        rcases hba with rfl | hl
        · exact absurd hb hs
        · exact ⟨hl, hs⟩
    · simp only [if_neg hb, List.mem_cons, ih]
      by_cases hab : a = b
      · subst hab; simp [hb]
      · simp [hab]

theorem mem_dedupFirst {α : Type} [DecidableEq α] (l : List α) (a : α) :
    a ∈ dedupFirst l ↔ a ∈ l := by
  simp [dedupFirst, mem_dedupFirstAux]

theorem count_filter_partition {α : Type} [BEq α] [LawfulBEq α]
    (p : α → Bool) (l : List α) (s : α) :
    (l.filter p).count s + (l.filter (fun t => !p t)).count s = l.count s := by
  induction l with
  | nil => simp
  | cons a l ih =>
    rcases eq_or_ne s a with rfl | hsa
    · cases hp : p s
      · rw [List.filter_cons_of_neg (by simp [hp]),
          List.filter_cons_of_pos (by simp [hp]),
          List.count_cons_self, List.count_cons_self]
        omega
      · rw [List.filter_cons_of_pos (by simp [hp]),
          List.filter_cons_of_neg (by simp [hp]),
          List.count_cons_self, List.count_cons_self]
        omega
    · have h1 : List.count s (a :: l) = List.count s l :=
        List.count_cons_of_ne hsa _
      cases hp : p a
      · rw [List.filter_cons_of_neg (by simp [hp]),
          List.filter_cons_of_pos (by simp [hp]),
          List.count_cons_of_ne hsa, h1]
        omega
      · rw [List.filter_cons_of_pos (by simp [hp]),
          List.filter_cons_of_neg (by simp [hp]),
          List.count_cons_of_ne hsa, h1]
        omega

-- ---------------------------------------------------------------------------
-- C7
-- ---------------------------------------------------------------------------

/-- C7: the skill-overlap score equals the number of job-description
skills present in the resume skill set divided by the total number of
job-description skills, and equals 0 when the job description has no
detected skills. -/
theorem C7_skill_overlap_score (resume_skills jd_skills : List (List Char)) :
    (compute_skill_overlap resume_skills jd_skills).1 =
      if jd_skills = [] then 0
      else ((jd_skills.countP (fun s => decide (s ∈ resume_skills)) : ℚ) /
        (jd_skills.length : ℚ)) := by
  simp [compute_skill_overlap, List.countP_eq_length_filter]

-- ---------------------------------------------------------------------------
-- C9
-- ---------------------------------------------------------------------------

/-- C9: matched and missing exactly partition the job-description skill
list: both are order-preserving sublists of it, every occurrence of a
job-description skill lands in exactly one of the two, membership is
exclusive, and the lists contain nothing else. -/
theorem C9_matched_missing_partition
    (resume_skills jd_skills : List (List Char)) :
    (compute_skill_overlap resume_skills jd_skills).2.1.Sublist jd_skills ∧
    (compute_skill_overlap resume_skills jd_skills).2.2.Sublist jd_skills ∧
    (∀ s, (compute_skill_overlap resume_skills jd_skills).2.1.count s +
      (compute_skill_overlap resume_skills jd_skills).2.2.count s =
      jd_skills.count s) ∧
    (∀ s ∈ jd_skills,
      (s ∈ (compute_skill_overlap resume_skills jd_skills).2.1 ↔
        s ∉ (compute_skill_overlap resume_skills jd_skills).2.2)) ∧
    (∀ s ∈ (compute_skill_overlap resume_skills jd_skills).2.1,
      s ∈ jd_skills) ∧
    (∀ s ∈ (compute_skill_overlap resume_skills jd_skills).2.2,
      s ∈ jd_skills) := by
  simp only [compute_skill_overlap]
  refine ⟨List.filter_sublist _, List.filter_sublist _, ?_, ?_, ?_, ?_⟩
  · intro s
    simp only [decide_not]
    exact count_filter_partition (fun t => decide (t ∈ resume_skills))
      jd_skills s
  · intro s hs
    by_cases h : s ∈ resume_skills <;> simp [List.mem_filter, hs, h]
  · intro s hs; exact (List.mem_filter.mp hs).1
  · intro s hs; exact (List.mem_filter.mp hs).1

-- ---------------------------------------------------------------------------
-- C10
-- ---------------------------------------------------------------------------

/-- C10: the skill-overlap score and the experience-alignment score lie
in the closed interval from 0 to 1, for every input. -/
theorem C10_scores_in_unit_interval
    (resume_skills jd_skills : List (List Char)) (clean_text : List Char) :
    (0 ≤ (compute_skill_overlap resume_skills jd_skills).1 ∧
      (compute_skill_overlap resume_skills jd_skills).1 ≤ 1) ∧
    (0 ≤ (experience_alignment clean_text jd_skills).1 ∧
      (experience_alignment clean_text jd_skills).1 ≤ 1) := by
  constructor
  · simp only [compute_skill_overlap]
    rcases eq_or_ne jd_skills [] with h | h
    · simp [h]
    · have hlen : 0 < (jd_skills.length : ℚ) := by
        exact_mod_cast List.length_pos.mpr h
      rw [if_neg h]
      constructor
      · positivity
      · rw [div_le_one hlen]
        exact_mod_cast List.length_filter_le _ _
  · simp only [experience_alignment]
    rcases eq_or_ne jd_skills [] with h | h
    · simp [h]
    · have hlen : 0 < ((max 1 jd_skills.length : ℕ) : ℚ) := by
        exact_mod_cast Nat.lt_of_lt_of_le Nat.zero_lt_one (le_max_left _ _)
      rw [if_neg h]
      constructor
      · positivity
      · rw [div_le_one hlen]
        exact_mod_cast le_trans (List.length_filter_le _ _)
          (le_max_right 1 jd_skills.length)

-- ---------------------------------------------------------------------------
-- C1
-- ---------------------------------------------------------------------------

/-- C1: every reported final score is the fixed weighted blend
0.60 times semantic similarity plus 0.25 times skill overlap plus 0.15
times experience alignment, rounded to 4 decimal places; on the concrete
instance of the claim (job-description skills python and sql, resume
skill set python, semantic similarity 0.8, experience alignment 1) the
overlap is 0.5 and the final score is 0.755. -/
theorem C1_final_score_formula :
    (∀ (jd_skills : List (List Char)) (row : RetrievedRow),
      (mkResult jd_skills row).final_score =
        round4 (0.60 * row.semantic_similarity.getD 0
          + 0.25 * (compute_skill_overlap
              (extract_resume_skills row.parsed_json row.clean_text)
              jd_skills).1
          + 0.15 * (experience_alignment row.clean_text jd_skills).1)) ∧
    extract_jd_skills "python and sql".data = ["python".data, "sql".data] ∧
    (compute_skill_overlap ["python".data]
      (extract_jd_skills "python and sql".data)).1 = 0.5 ∧
    (experience_alignment "python sql".data
      (extract_jd_skills "python and sql".data)).1 = 1 ∧
    (mkResult (extract_jd_skills "python and sql".data)
      { resume_id := 1
        parsed_json := .dict (.vlist ["python".data]) .vnone
        clean_text := "python sql".data
        semantic_similarity := some 0.8 }).final_score = 0.755 := by
  have hjd : extract_jd_skills "python and sql".data =
      ["python".data, "sql".data] := by decide
  have hov : (compute_skill_overlap ["python".data]
      ["python".data, "sql".data]).1 = 0.5 := by
    have hm : (List.filter (fun s => decide (s ∈ ["python".data]))
        ["python".data, "sql".data]).length = 1 := by decide
    simp only [compute_skill_overlap]
    rw [if_neg (by decide), hm]
    norm_num
  have hea : (experience_alignment "python sql".data
      ["python".data, "sql".data]).1 = 1 := by
    have hh : (List.filter
        (fun s => decide (s ≠ []) && containsSub s (toLowerL "python sql".data))
        ["python".data, "sql".data]).length = 2 := by decide
    simp only [experience_alignment]
    rw [if_neg (by decide), hh]
    norm_num
  refine ⟨fun jd_skills row => rfl, hjd, ?_, ?_, ?_⟩
  · rw [hjd]; exact hov
  · rw [hjd]; exact hea
  · rw [hjd]
    simp only [mkResult]
    have hrs : extract_resume_skills
        (.dict (.vlist ["python".data]) .vnone) "python sql".data =
        ["python".data] := by decide
    rw [hrs, hov, hea]
    have harg : (0.60 : ℚ) * (Option.getD (some 0.8) 0)
        + 0.25 * 0.5 + 0.15 * 1 = 151 / 200 := by
      simp only [Option.getD]; norm_num
    rw [harg]
    have hfl : ((151 : ℚ) / 200 * 10000) = ((7550 : ℤ) : ℚ) := by norm_num
    simp only [round4, roundHalfEven, hfl, Int.floor_intCast]
    norm_num

-- ---------------------------------------------------------------------------
-- C3
-- ---------------------------------------------------------------------------

/-- C3: the returned results list is sorted by final score descending, it
is a permutation of the scored retrieval list (whose order is the
semantic retrieval order), and the sort is stable: for every score
value, the entries carrying that score appear in exactly the order the
retrieval produced them, so ties are deterministic given identical input
ordering. -/
theorem C3_results_sorted_descending
    (jd_clean_text : List Char) (rows : List RetrievedRow) :
    List.Sorted scoreGE (matchResults jd_clean_text rows) ∧
    (matchResults jd_clean_text rows).Perm
      (rows.map (mkResult (extract_jd_skills jd_clean_text))) ∧
    (∀ q : ℚ,
      (matchResults jd_clean_text rows).filter
        (fun r => decide (r.final_score = q)) =
      (rows.map (mkResult (extract_jd_skills jd_clean_text))).filter
        (fun r => decide (r.final_score = q))) := by
  refine ⟨List.sorted_insertionSort scoreGE _, List.perm_insertionSort scoreGE _, ?_⟩
  intro q
  set L := rows.map (mkResult (extract_jd_skills jd_clean_text)) with hL
  set p : MatchResult → Bool := fun r => decide (r.final_score = q) with hp
  have hmemq : ∀ r ∈ L.filter p, r.final_score = q := by
    intro r hr
    have := (List.mem_filter.mp hr).2
    simpa [hp] using this
  have hpair : (L.filter p).Pairwise scoreGE := by
    apply List.pairwise_of_forall_mem_list
    intro a ha b hb
    unfold scoreGE
    rw [hmemq a ha, hmemq b hb]
  have hsub : (L.filter p).Sublist (L.insertionSort scoreGE) :=
    List.sublist_insertionSort hpair (List.filter_sublist L)
  have hsub2 : (L.filter p).Sublist ((L.insertionSort scoreGE).filter p) := by
    have := hsub.filter p
    rwa [List.filter_filter, show (fun a => p a && p a) = p from by
      funext a; cases p a <;> simp] at this
  have hlen : ((L.insertionSort scoreGE).filter p).length =
      (L.filter p).length :=
    ((List.perm_insertionSort scoreGE L).filter p).length_eq
  exact (List.Sublist.eq_of_length hsub2 hlen.symm).symm

-- ---------------------------------------------------------------------------
-- C5
-- ---------------------------------------------------------------------------

/-- C5: OCR gate.  When the extracted text has fewer than 200 characters
after trimming, the row ends in NEEDS_OCR with the raw (possibly empty)
text persisted and the derived fields untouched; with at least 200
trimmed characters and a successful embedding the row ends in PROCESSED
with all derived fields written. -/
theorem C5_ocr_gate (text : List Char)
    (embed : List Char → Except (List Char) (List ℚ))
    (model : List Char) (row : ResumeRow) :
    ((pyStrip text).length < 200 →
      (process_resume_text (.ok text) embed model row).status = .NEEDS_OCR ∧
      (process_resume_text (.ok text) embed model row).raw_text = some text ∧
      (process_resume_text (.ok text) embed model row).clean_text =
        row.clean_text ∧
      (process_resume_text (.ok text) embed model row).parsed_json =
        row.parsed_json ∧
      (process_resume_text (.ok text) embed model row).embedding =
        row.embedding ∧
      (process_resume_text (.ok text) embed model row).embedding_model =
        row.embedding_model) ∧
    (200 ≤ (pyStrip text).length → ∀ emb,
      embed (clean_text_basic text) = .ok emb →
      (process_resume_text (.ok text) embed model row).status = .PROCESSED ∧
      (process_resume_text (.ok text) embed model row).clean_text =
        some (clean_text_basic text) ∧
      (process_resume_text (.ok text) embed model row).parsed_json =
        some (parse_resume (clean_text_basic text)) ∧
      (process_resume_text (.ok text) embed model row).embedding = some emb ∧
      (process_resume_text (.ok text) embed model row).embedding_model =
        some model) := by
  constructor
  · intro h
    simp [process_resume_text, set_status, if_pos h]
  · intro h emb hemb
    simp [process_resume_text, set_status, set_phase3_outputs,
      if_neg (not_lt.mpr h), hemb]

/-- Short text sample for the OCR-gate witness. -/
def shortText : List Char := "only fifty characters of text in this resume doc..".data

/-- Long text sample, 200 non-whitespace characters. -/
def longText : List Char := List.replicate 200 'a'

/-- Embedding stub that always succeeds. -/
def embedOk : List Char → Except (List Char) (List ℚ) := fun _ => .ok [1]

/-- Empty database row used by the pipeline witnesses. -/
def row0 : ResumeRow :=
  { status := .UPLOADED, raw_text := none, clean_text := none,
    parsed_json := none, embedding := none, embedding_model := none }

/-- C5 witness: the gate theorem evaluated on a 50-character text (ends
in NEEDS_OCR, nothing else written) and on a 200-character text with a
successful embedding (ends in PROCESSED). -/
theorem C5_ocr_gate_witness :
    ((process_resume_text (.ok shortText) embedOk "m".data row0).status =
        .NEEDS_OCR ∧
      (process_resume_text (.ok shortText) embedOk "m".data row0).raw_text =
        some shortText ∧
      (process_resume_text (.ok shortText) embedOk "m".data row0).clean_text =
        row0.clean_text ∧
      (process_resume_text (.ok shortText) embedOk "m".data row0).parsed_json =
        row0.parsed_json ∧
      (process_resume_text (.ok shortText) embedOk "m".data row0).embedding =
        row0.embedding ∧
      (process_resume_text (.ok shortText) embedOk "m".data row0).embedding_model =
        row0.embedding_model) ∧
    (process_resume_text (.ok longText) embedOk "m".data row0).status =
      .PROCESSED :=
  ⟨(C5_ocr_gate shortText embedOk "m".data row0).1 (by decide),
   (((C5_ocr_gate longText embedOk "m".data row0).2 (by decide)) [1] rfl).1⟩

-- ---------------------------------------------------------------------------
-- C6
-- ---------------------------------------------------------------------------

/-- C6: the pipeline swallows errors.  An extraction error, and an
embedding error on the long-text path, both end in the terminal FAILED
status with the diagnostic string ERROR: message stored in place of raw
text; process_resume_text is a total function, the model of never
propagating an exception to the caller. -/
theorem C6_pipeline_errors_swallowed (e : List Char)
    (embed : List Char → Except (List Char) (List ℚ))
    (model : List Char) (row : ResumeRow) :
    ((process_resume_text (.error e) embed model row).status = .FAILED ∧
      (process_resume_text (.error e) embed model row).raw_text =
        some (errMsg e)) ∧
    (∀ text e2, 200 ≤ (pyStrip text).length →
      embed (clean_text_basic text) = .error e2 →
      (process_resume_text (.ok text) embed model row).status = .FAILED ∧
      (process_resume_text (.ok text) embed model row).raw_text =
        some (errMsg e2)) := by
  constructor
  · constructor <;> simp [process_resume_text, set_status]
  · intro text e2 h hemb
    constructor <;>
      simp [process_resume_text, set_status, if_neg (not_lt.mpr h), hemb]

/-- Embedding stub that always fails. -/
def embedErr : List Char → Except (List Char) (List ℚ) :=
  fun _ => .error "boom".data

/-- C6 witness: a concrete extraction failure and a concrete embedding
failure both end FAILED with the diagnostic text. -/
theorem C6_pipeline_errors_swallowed_witness :
    ((process_resume_text (.error "bad pdf".data) embedErr "m".data
        row0).status = .FAILED ∧
      (process_resume_text (.error "bad pdf".data) embedErr "m".data
        row0).raw_text = some (errMsg "bad pdf".data)) ∧
    ((process_resume_text (.ok longText) embedErr "m".data row0).status =
        .FAILED ∧
      (process_resume_text (.ok longText) embedErr "m".data row0).raw_text =
        some (errMsg "boom".data)) :=
  ⟨(C6_pipeline_errors_swallowed "bad pdf".data embedErr "m".data row0).1,
   (C6_pipeline_errors_swallowed "bad pdf".data embedErr "m".data row0).2
     longText "boom".data (by decide) rfl⟩

-- ---------------------------------------------------------------------------
-- C2
-- ---------------------------------------------------------------------------

/-- C2 counterexample: the job-description extractor is a plain
substring scan, so on the input going forward it does report the
single-token term go, although go has no word-bounded occurrence in that
text.  This refutes the claim that each skill extractor reports a
single-token term only when it occurs on word boundaries. -/
theorem C2_counterexample :
    "go".data ∈ extract_jd_skills "going forward".data ∧
    wbSearch (toLowerL "go".data) (toLowerL "going forward".data) = false := by
  constructor <;> decide

/-- C2 amended: only the resume-side extractor extract_skills is
word-bounded: a vocabulary term made of word characters is reported
exactly when it occurs word-bounded in the lowercased text, so go is
reported for the text I use Go and not for going forward; the
job-description-side extract_jd_skills instead uses substring
containment and does report go for going forward. -/
theorem C2_word_bounded_amended :
    (∀ (text : List Char) (vocab : List (List Char)) (term : List Char),
      term ∈ vocab →
      (term ∈ extract_skills text vocab ↔
        wbSearch (toLowerL term) (toLowerL text) = true)) ∧
    extract_skills "I use Go".data ["go".data] = ["go".data] ∧
    extract_skills "going forward".data ["go".data] = [] ∧
    "go".data ∈ extract_jd_skills "going forward".data := by
  refine ⟨?_, by decide, by decide, by decide⟩
  intro text vocab term hmem
  unfold extract_skills
  rw [List.Perm.mem_iff (List.perm_insertionSort lexLe _), mem_dedupFirst,
    List.mem_filter]
  constructor
  · rintro ⟨-, h⟩; exact h
  · intro h; exact ⟨hmem, h⟩

/-- C2 witness: the amended membership equivalence evaluated at the
concrete vocabulary containing only go and the text I use Go. -/
theorem C2_word_bounded_amended_witness :
    "go".data ∈ ["go".data] ∧
    ("go".data ∈ extract_skills "I use Go".data ["go".data] ↔
      wbSearch (toLowerL "go".data) (toLowerL "I use Go".data) = true) :=
  ⟨by decide,
   C2_word_bounded_amended.1 "I use Go".data ["go".data] "go".data (by decide)⟩

-- ---------------------------------------------------------------------------
-- C4
-- ---------------------------------------------------------------------------

theorem find?_append_of_some {α : Type} (p : α → Bool) (l₁ l₂ : List α)
    (k : α) (h : l₁.find? p = some k) : (l₁ ++ l₂).find? p = some k := by
  induction l₁ with
  | nil => simp at h
  | cons a l ih =>
    by_cases hp : p a
    · simpa [List.find?_cons, hp] using by simpa [List.find?_cons, hp] using h
    · simp only [List.find?_cons, hp] at h
      simp only [List.cons_append, List.find?_cons, hp]
      simpa using ih (by simpa using h)

theorem find?_append_of_none {α : Type} (p : α → Bool) (l₁ l₂ : List α)
    (h : l₁.find? p = none) : (l₁ ++ l₂).find? p = l₂.find? p := by
  induction l₁ with
  | nil => simp
  | cons a l ih =>
    by_cases hp : p a
    · simp [List.find?_cons, hp] at h
    · simp only [List.find?_cons, hp] at h
      simp only [List.cons_append, List.find?_cons, hp]
      simpa using ih (by simpa using h)

theorem find?_range_least (p : Nat → Bool) (n i : Nat)
    (h : (List.range n).find? p = some i) :
    p i = true ∧ ∀ j < i, p j = false := by
  induction n with
  | zero => simp [List.range_zero] at h
  | succ n ih =>
    rw [List.range_succ] at h
    cases hfn : (List.range n).find? p with
    | some k =>
      rw [find?_append_of_some p (List.range n) [n] k hfn] at h
      obtain rfl := Option.some_injective _ h
      exact ih hfn
    | none =>
      rw [find?_append_of_none p (List.range n) [n] hfn] at h
      have hall : ∀ j < n, p j = false := by
        intro j hj
        have := List.find?_eq_none.mp hfn j (List.mem_range.mpr hj)
        simpa using this
      by_cases hpn : p n
      · simp only [List.find?_cons, hpn] at h
        obtain rfl := Option.some_injective _ h
        exact ⟨hpn, hall⟩
      · simp [List.find?_cons, hpn] at h

/-- The Python find used in the section splitter returns the least
occurrence index of the needle. -/
theorem findSub_least (s t : List Char) (i : Nat)
    (h : findSub s t = some i) :
    occursAt s t i = true ∧ ∀ j < i, occursAt s t j = false :=
  find?_range_least (occursAt s t) (t.length + 1) i h

/-- Definition following the words of the specification sentence for the
section truncation, used only to compare against extract_section: among
ALL occurrences of the stop keywords in the window at offsets greater
than 0, if at least two exist, cut at the second one. -/
def extract_section_spec (t : List Char)
    (header_variants : List (List Char)) : List Char :=
  match headerStart t header_variants with
  | none => []
  | some start =>
    let chunk := (t.drop start).take 2500
    let chunkLower := toLowerL chunk
    let stops := (List.range (chunkLower.length + 1)).filter
      (fun i => 0 < i && stop_keywords.any (fun k => occursAt k chunkLower i))
    match stops with
    | _ :: s1 :: _ => normalize (chunk.take s1)
    | _ => normalize chunk

/-- C4 counterexample: on a window in which the single stop keyword
education occurs twice (offsets 7 and 20), extract_section keeps the
full window (the code collects one first-occurrence index per keyword,
and only one keyword has a positive one), while the claimed
all-occurrences rule would cut at the second occurrence. -/
theorem C4_counterexample :
    extract_section "skills education aa education bb".data ["skills".data] =
      "skills education aa education bb".data ∧
    extract_section_spec "skills education aa education bb".data
      ["skills".data] = "skills education aa".data ∧
    extract_section "skills education aa education bb".data ["skills".data] ≠
      extract_section_spec "skills education aa education bb".data
        ["skills".data] := by
  refine ⟨by decide, by decide, by decide⟩

/-- C4 amended: when a header is found, extract_section takes the window
of at most 2500 characters from the header position and cuts it as
follows: for each stop keyword take its FIRST occurrence offset in the
window (findSub, proved below to be the least occurrence index); among
these one-per-keyword offsets keep the positive ones; if at least two
keywords contribute one, cut at the second smallest; otherwise keep the
full window; finally whitespace-normalize. -/
theorem C4_section_truncation_amended (t : List Char)
    (hv : List (List Char)) (start : Nat)
    (h : headerStart t hv = some start) :
    (2 ≤ ((stop_keywords.filterMap
        (fun k => findSub k (toLowerL ((t.drop start).take 2500)))).filter
        (fun s => 0 < s)).length →
      extract_section t hv =
        normalize (((t.drop start).take 2500).take
          ((((stop_keywords.filterMap
            (fun k => findSub k (toLowerL ((t.drop start).take 2500)))).filter
            (fun s => 0 < s)).insertionSort (· ≤ ·)).getD 1 0))) ∧
    (((stop_keywords.filterMap
        (fun k => findSub k (toLowerL ((t.drop start).take 2500)))).filter
        (fun s => 0 < s)).length < 2 →
      extract_section t hv = normalize ((t.drop start).take 2500)) ∧
    (∀ k i, findSub k (toLowerL ((t.drop start).take 2500)) = some i →
      occursAt k (toLowerL ((t.drop start).take 2500)) i = true ∧
      ∀ j < i, occursAt k (toLowerL ((t.drop start).take 2500)) j = false) := by
  set chunk := (t.drop start).take 2500 with hchunk
  set firsts := (stop_keywords.filterMap
    (fun k => findSub k (toLowerL chunk))).filter (fun s => 0 < s)
    with hfirsts
  have hlen : (firsts.insertionSort (· ≤ ·)).length = firsts.length :=
    (List.perm_insertionSort _ _).length_eq
  refine ⟨?_, ?_, fun k i hki => findSub_least _ _ _ hki⟩
  · intro h2
    rcases hs : firsts.insertionSort (· ≤ ·) with - | ⟨a, - | ⟨b, rest⟩⟩
    · rw [hs] at hlen; simp at hlen; omega
    · rw [hs] at hlen; simp at hlen; omega
    · simp only [extract_section, h, ← hchunk, ← hfirsts, hs, List.getD]
      simp
  · intro h2
    rcases hs : firsts.insertionSort (· ≤ ·) with - | ⟨a, - | ⟨b, rest⟩⟩
    · simp only [extract_section, h, ← hchunk, ← hfirsts, hs]
    · simp only [extract_section, h, ← hchunk, ← hfirsts, hs]
    · rw [hs] at hlen; simp at hlen; omega

/-- C4 witness: the amended truncation rule evaluated on two concrete
inputs, one exercising the cut (two keywords with positive first
occurrences) and one keeping the full window (a single keyword,
occurring twice). -/
theorem C4_section_truncation_amended_witness :
    (headerStart "skills python education x projects y".data
        ["skills".data] = some 0 ∧
      extract_section "skills python education x projects y".data
        ["skills".data] = "skills python education x".data) ∧
    (headerStart "skills education aa education bb".data
        ["skills".data] = some 0 ∧
      extract_section "skills education aa education bb".data
        ["skills".data] = "skills education aa education bb".data) := by
  constructor
  · refine ⟨by decide, ?_⟩
    have h := (C4_section_truncation_amended
      "skills python education x projects y".data ["skills".data] 0
      (by decide)).1 (by decide)
    exact h.trans (by decide)
  · refine ⟨by decide, ?_⟩
    have h := (C4_section_truncation_amended
      "skills education aa education bb".data ["skills".data] 0
      (by decide)).2.1 (by decide)
    exact h.trans (by decide)

-- ---------------------------------------------------------------------------
-- C8
-- ---------------------------------------------------------------------------

/-- No two adjacent whitespace characters. -/
def noTwoSpaces : List Char → Bool
  | [] => true
  | [_] => true
  | a :: b :: l => (!(pySpace a && pySpace b)) && noTwoSpaces (b :: l)

/-- Every whitespace character is the plain space character. -/
def onlySingleSpace (l : List Char) : Bool :=
  l.all (fun c => !pySpace c || c == ' ')

theorem collapseWS_cons2 (a b : Char) (l : List Char) :
    collapseWS (a :: b :: l) =
      if pySpace a && pySpace b then collapseWS (b :: l)
      else (if pySpace a then ' ' else a) :: collapseWS (b :: l) := rfl

theorem noTwoSpaces_cons2 (a b : Char) (l : List Char) :
    noTwoSpaces (a :: b :: l) =
      ((!(pySpace a && pySpace b)) && noTwoSpaces (b :: l)) := rfl

theorem noTwoSpaces_tail {a : Char} {l : List Char}
    (h : noTwoSpaces (a :: l) = true) : noTwoSpaces l = true := by
  cases l with
  | nil => rfl
  | cons b t =>
    rw [noTwoSpaces_cons2, Bool.and_eq_true] at h
    exact h.2

theorem noTwoSpaces_append_right {l r : List Char}
    (h : noTwoSpaces (l ++ r) = true) : noTwoSpaces r = true := by
  induction l with
  | nil => exact h
  | cons a l ih => exact ih (noTwoSpaces_tail h)

theorem noTwoSpaces_append_left {l r : List Char}
    (h : noTwoSpaces (l ++ r) = true) : noTwoSpaces l = true := by
  induction l with
  | nil => rfl
  | cons a l ih =>
    cases l with
    | nil => rfl
    | cons b t =>
      rw [List.cons_append, List.cons_append, noTwoSpaces_cons2,
        Bool.and_eq_true] at h
      rw [noTwoSpaces_cons2, Bool.and_eq_true]
      exact ⟨h.1, ih (by rw [List.cons_append]; exact h.2)⟩

/-- If the collapsed form of a nonempty list starts with a whitespace
character then the list itself starts with one. -/
theorem collapseWS_head_space (b : Char) (l : List Char) (c : Char)
    (r : List Char) (h : collapseWS (b :: l) = c :: r)
    (hc : pySpace c = true) : pySpace b = true := by
  cases l with
  | nil =>
    by_cases hb : pySpace b = true
    · exact hb
    · simp only [collapseWS, Bool.not_eq_true] at h
      rw [if_neg (by simp [hb])] at h
      obtain rfl : b = c := (List.cons.injEq _ _ _ _).mp h |>.1
      exact absurd hc (by simp [hb])
  | cons b2 l2 =>
    rw [collapseWS_cons2] at h
    by_cases hcond : (pySpace b && pySpace b2) = true
    · have hbb : pySpace b = true ∧ pySpace b2 = true := by simpa using hcond
      exact hbb.1
    · rw [if_neg hcond] at h
      have hhead : (if pySpace b then ' ' else b) = c :=
        (List.cons.injEq _ _ _ _).mp h |>.1
      by_cases hb : pySpace b = true
      · exact hb
      · rw [if_neg hb] at hhead
        exact absurd hc (hhead ▸ (by simp [hb] : pySpace b ≠ true))

theorem collapseWS_noTwoSpaces (l : List Char) :
    noTwoSpaces (collapseWS l) = true := by
  induction l with
  | nil => rfl
  | cons a t ih =>
    cases t with
    | nil =>
      by_cases ha : pySpace a = true <;>
        simp only [collapseWS] <;> [rw [if_pos ha]; rw [if_neg ha]] <;> rfl
    | cons b l2 =>
      rw [collapseWS_cons2]
      by_cases hcond : (pySpace a && pySpace b) = true
      · rw [if_pos hcond]; exact ih
      · rw [if_neg hcond]
        cases hcw : collapseWS (b :: l2) with
        | nil => rfl
        | cons c r =>
          rw [noTwoSpaces_cons2, Bool.and_eq_true]
          refine ⟨?_, by rw [← hcw]; exact ih⟩
          by_cases hc : pySpace c = true
          · have hb : pySpace b = true :=
              collapseWS_head_space b l2 c r hcw hc
            by_cases ha : pySpace a = true
            · exact absurd (by simp [ha, hb]) hcond
            · rw [if_neg ha]; simp [ha]
          · by_cases ha : pySpace a = true
            · rw [if_pos ha]; simp [hc]
            · rw [if_neg ha]; simp [ha]

theorem collapseWS_onlySingleSpace (l : List Char) :
    onlySingleSpace (collapseWS l) = true := by
  induction l with
  | nil => rfl
  | cons a t ih =>
    cases t with
    | nil =>
      by_cases ha : pySpace a = true <;>
        simp only [collapseWS] <;> [rw [if_pos ha]; rw [if_neg ha]] <;>
        simp [onlySingleSpace, ha]
    | cons b l2 =>
      rw [collapseWS_cons2]
      by_cases hcond : (pySpace a && pySpace b) = true
      · rw [if_pos hcond]; exact ih
      · rw [if_neg hcond]
        by_cases ha : pySpace a = true
        · rw [if_pos ha]
          simp only [onlySingleSpace, List.all_cons, Bool.and_eq_true]
          exact ⟨by decide, ih⟩
        · rw [if_neg ha]
          have ha' : pySpace a = false := by simpa using ha
          simp only [onlySingleSpace, List.all_cons, Bool.and_eq_true]
          exact ⟨by simp [ha'], ih⟩

theorem collapseWS_eq_self {l : List Char}
    (h1 : noTwoSpaces l = true) (h2 : onlySingleSpace l = true) :
    collapseWS l = l := by
  induction l with
  | nil => rfl
  | cons a t ih =>
    cases t with
    | nil =>
      by_cases ha : pySpace a = true
      · have haeq : a = ' ' := by
          simpa [onlySingleSpace, ha] using h2
        simp only [collapseWS]
        rw [if_pos ha, haeq]
      · simp only [collapseWS]
        rw [if_neg ha]
    | cons b l2 =>
      rw [collapseWS_cons2]
      have hcond : ¬((pySpace a && pySpace b) = true) := by
        intro hx
        rw [noTwoSpaces_cons2, hx] at h1
        simp at h1
      rw [if_neg hcond]
      have htail : collapseWS (b :: l2) = b :: l2 := by
        apply ih (noTwoSpaces_tail h1)
        simp only [onlySingleSpace, List.all_cons, Bool.and_eq_true] at h2 ⊢
        exact ⟨h2.2.1, h2.2.2⟩
      rw [htail]
      by_cases ha : pySpace a = true
      · have haeq : a = ' ' := by
          simp only [onlySingleSpace, List.all_cons, Bool.and_eq_true] at h2
          simpa [ha] using h2.1
        rw [if_pos ha, haeq]
      · rw [if_neg ha]

theorem mem_of_mem_dropWhile {p : Char → Bool} {a : Char} :
    ∀ {l : List Char}, a ∈ l.dropWhile p → a ∈ l := by
  intro l
  induction l with
  | nil => intro h; exact h
  | cons c cs ih =>
    intro h
    by_cases hp : p c = true
    · rw [List.dropWhile_cons_of_pos hp] at h
      exact List.mem_cons_of_mem c (ih h)
    · rw [List.dropWhile_cons_of_neg (by simpa using hp)] at h
      exact h

theorem mem_of_mem_dropTrailingWS {a : Char} :
    ∀ {l : List Char}, a ∈ dropTrailingWS l → a ∈ l := by
  intro l
  induction l with
  | nil => intro h; exact h
  | cons c cs ih =>
    intro h
    simp only [dropTrailingWS] at h
    by_cases hb : ((dropTrailingWS cs).isEmpty && pySpace c) = true
    · rw [if_pos hb] at h; exact absurd h (List.not_mem_nil a)
    · rw [if_neg hb] at h
      rcases List.mem_cons.mp h with rfl | h
      · exact List.mem_cons_self a cs
      · exact List.mem_cons_of_mem c (ih h)

theorem dropWhile_exists_app (p : Char → Bool) (l : List Char) :
    ∃ u, u ++ l.dropWhile p = l := by
  induction l with
  | nil => exact ⟨[], rfl⟩
  | cons c cs ih =>
    by_cases hp : p c = true
    · obtain ⟨u, hu⟩ := ih
      exact ⟨c :: u, by rw [List.dropWhile_cons_of_pos hp,
        List.cons_append, hu]⟩
    · exact ⟨[], by rw [List.dropWhile_cons_of_neg (by simpa using hp),
        List.nil_append]⟩

theorem dropTrailingWS_exists_app (l : List Char) :
    ∃ v, dropTrailingWS l ++ v = l := by
  induction l with
  | nil => exact ⟨[], rfl⟩
  | cons c cs ih =>
    simp only [dropTrailingWS]
    by_cases hb : ((dropTrailingWS cs).isEmpty && pySpace c) = true
    · rw [if_pos hb]; exact ⟨c :: cs, rfl⟩
    · rw [if_neg hb]
      obtain ⟨v, hv⟩ := ih
      exact ⟨v, by rw [List.cons_append, hv]⟩

theorem pyStrip_noTwoSpaces {l : List Char}
    (h : noTwoSpaces l = true) : noTwoSpaces (pyStrip l) = true := by
  obtain ⟨u, hu⟩ := dropWhile_exists_app pySpace l
  have h1 : noTwoSpaces (l.dropWhile pySpace) = true :=
    noTwoSpaces_append_right (hu ▸ h)
  obtain ⟨v, hv⟩ := dropTrailingWS_exists_app (l.dropWhile pySpace)
  exact noTwoSpaces_append_left (hv ▸ h1)

theorem pyStrip_onlySingleSpace {l : List Char}
    (h : onlySingleSpace l = true) :
    onlySingleSpace (pyStrip l) = true := by
  simp only [onlySingleSpace, List.all_eq_true] at h ⊢
  intro c hc
  exact h c (mem_of_mem_dropWhile (mem_of_mem_dropTrailingWS hc))

theorem dropWhile_head_false {p : Char → Bool} :
    ∀ {l : List Char} {c : Char} {r : List Char},
      l.dropWhile p = c :: r → p c = false := by
  intro l
  induction l with
  | nil => intro c r h; exact absurd h (by simp)
  | cons a cs ih =>
    intro c r h
    by_cases hp : p a = true
    · rw [List.dropWhile_cons_of_pos hp] at h; exact ih h
    · rw [List.dropWhile_cons_of_neg (by simpa using hp)] at h
      obtain rfl : a = c := (List.cons.injEq _ _ _ _).mp h |>.1
      simpa using hp

theorem dropTrailingWS_cons_cases (c : Char) (cs : List Char) :
    dropTrailingWS (c :: cs) = [] ∨
      ∃ r, dropTrailingWS (c :: cs) = c :: r := by
  simp only [dropTrailingWS]
  by_cases hb : ((dropTrailingWS cs).isEmpty && pySpace c) = true
  · rw [if_pos hb]; exact Or.inl rfl
  · rw [if_neg hb]; exact Or.inr ⟨dropTrailingWS cs, rfl⟩

theorem dropTrailingWS_idem (l : List Char) :
    dropTrailingWS (dropTrailingWS l) = dropTrailingWS l := by
  induction l with
  | nil => rfl
  | cons c cs ih =>
    simp only [dropTrailingWS]
    by_cases hb : ((dropTrailingWS cs).isEmpty && pySpace c) = true
    · rw [if_pos hb]; rfl
    · rw [if_neg hb]
      simp only [dropTrailingWS, ih]
      rw [if_neg hb]

theorem dropWhile_pyStrip (l : List Char) :
    (pyStrip l).dropWhile pySpace = pyStrip l := by
  unfold pyStrip
  cases hdw : l.dropWhile pySpace with
  | nil => rfl
  | cons c ms =>
    have hc : pySpace c = false := dropWhile_head_false hdw
    rcases dropTrailingWS_cons_cases c ms with h | ⟨r, h⟩
    · rw [h]; rfl
    · rw [h, List.dropWhile_cons_of_neg (by simp [hc])]

theorem pyStrip_idem (l : List Char) : pyStrip (pyStrip l) = pyStrip l := by
  show dropTrailingWS ((pyStrip l).dropWhile pySpace) = pyStrip l
  rw [dropWhile_pyStrip l]
  show dropTrailingWS (dropTrailingWS (l.dropWhile pySpace)) = pyStrip l
  rw [dropTrailingWS_idem]
  rfl

/-- C8: normalize is idempotent (it is a pure total function by
construction, collapsing every whitespace run to one space and trimming
the ends), and on the concrete input of the claim it returns a b. -/
theorem C8_normalize_idempotent :
    (∀ x : List Char, normalize (normalize x) = normalize x) ∧
    normalize "a\n\n b".data = "a b".data := by
  constructor
  · intro x
    have h1 : noTwoSpaces (pyStrip (collapseWS x)) = true :=
      pyStrip_noTwoSpaces (collapseWS_noTwoSpaces x)
    have h2 : onlySingleSpace (pyStrip (collapseWS x)) = true :=
      pyStrip_onlySingleSpace (collapseWS_onlySingleSpace x)
    show pyStrip (collapseWS (pyStrip (collapseWS x))) =
      pyStrip (collapseWS x)
    rw [collapseWS_eq_self h1 h2]
    have := pyStrip_idem (collapseWS x)
    rw [this]
  · decide

end ResumeMatch
